import Mathlib

/-!
# Verification of the pyqasm unroller specification

A shallow embedding, in Lean 4, of the parts of the pyqasm OpenQASM-3
semantic analyzer that the specification's claims speak about: the gate
tier system and name-level unrolling, gate broadcasting with duplicate
detection, multi-bit branch expansion, while-loop unrolling, qubit-order
reversal, the depth tracker, and the Cython `kronecker_factor` kernels.

The Python core (visitor, module façade, gate maps) is not present in the
source snapshot; those parts are modelled from the specification text, and
each such definition is marked `Modelled from the spec:` in its doc
comment.  The two Cython linear-algebra files are present and are
translated directly.
-/

namespace PyQasm

/-- Option-valued traversal of a list: the whole traversal fails as soon
as one element fails (the visitor's first-error-halts policy, spec §7). -/
def traverseOpt {α β : Type} (f : α → Option β) : List α → Option (List β)
  | [] => some []
  | x :: xs =>
      match f x, traverseOpt f xs with
      | some y, some ys => some (y :: ys)
      | _, _ => none

lemma traverseOpt_mem {α β : Type} (f : α → Option β) :
    ∀ (xs : List α) (ys : List β), traverseOpt f xs = some ys →
      ∀ y ∈ ys, ∃ x ∈ xs, f x = some y := by
  intro xs
  induction xs with
  | nil =>
      intro ys h y hy
      simp [traverseOpt] at h
      subst h
      simp at hy
  | cons x xs ih =>
      intro ys h y hy
      rcases hx : f x with _ | y₀ <;> rcases hxs : traverseOpt f xs with _ | ys₀ <;>
        simp [traverseOpt, hx, hxs] at h
      subst h
      rcases List.mem_cons.mp hy with hy | hy
      · exact ⟨x, List.mem_cons_self x xs, hy ▸ hx⟩
      · rcases ih ys₀ hxs y hy with ⟨x', hx', hfx'⟩
        exact ⟨x', List.mem_cons_of_mem x hx', hfx'⟩

/-- First-match association lookup (the registries are keyed by name). -/
def lookupRecipe {β : Type} : List (String × β) → String → Option β
  | [], _ => none
  | (n, r) :: rest, g => if g = n then some r else lookupRecipe rest g

lemma lookupRecipe_mem {β : Type} :
    ∀ (tbl : List (String × β)) (g : String) (r : β),
      lookupRecipe tbl g = some r → ∃ p ∈ tbl, p.2 = r := by
  intro tbl
  induction tbl with
  | nil => intro g r h; simp [lookupRecipe] at h
  | cons p rest ih =>
      intro g r h
      rcases p with ⟨n, r₀⟩
      by_cases heq : g = n
      · simp [lookupRecipe, heq] at h
        exact ⟨(n, r₀), List.mem_cons_self _ _, h⟩
      · simp [lookupRecipe, heq] at h
        rcases ih g r h with ⟨p', hp', hr'⟩
        exact ⟨p', List.mem_cons_of_mem _ hp', hr'⟩

/-! ## Gate tiers and name-level unrolling (spec §4.5, §4.6, P1, P6)

Modelled from the spec: the file `src/pyqasm/maps/gates.py` and the
visitor that performs gate expansion are absent from the snapshot.  The
spec partitions gates into intrinsics (emitted verbatim), decomposables
(a fixed catalog rewritten to sequences of intrinsic applications), and
user-defined gates (expanded by substitution into their body).  External
gates passed to `unroll` are retained verbatim. -/

/-- Modelled from the spec: the intrinsic gate set of §4.5 tier 1
(`U`, `gphase`, and the standard library names). -/
def intrinsicGates : List String :=
  ["U", "gphase", "h", "x", "y", "z", "s", "sdg", "t", "tdg", "sx", "sxdg",
   "rx", "ry", "rz", "cx", "cz", "cy", "ccx", "swap", "id"]

/-- Modelled from the spec: a representative part of the fixed decomposition
catalog of §4.5 tier 2 — each decomposable gate name maps to the sequence of
intrinsic gate names of its fixed recipe (recipes sourced from
`docs/gate_decompositions.md`). -/
def decompTable : List (String × List String) :=
  [("u3", ["rz", "rx", "rz", "rx", "rz"]),
   ("u2", ["rz", "rx", "rz", "rx", "rz"]),
   ("ch", ["s", "h", "t", "cx", "tdg", "h", "sdg"]),
   ("crz", ["rz", "cx", "rz", "cx"]),
   ("crx", ["rz", "ry", "cx", "ry", "cx", "rz"]),
   ("cswap", ["cx", "ccx", "cx"]),
   ("iswap", ["s", "s", "h", "cx", "cx", "h"]),
   ("phaseshift", ["rz", "gphase"]),
   ("cphaseshift", ["rz", "cx", "rz", "cx", "rz"])]

/-- A user gate environment: the gate definitions in scope, innermost last;
each body is the list of gate names applied in the body, which may refer
only to gates defined earlier in the list, to intrinsics, to decomposables
or to externals (the spec forbids cyclic references, §5). -/
abbrev GateEnv := List (String × List String)

/-- Modelled from the spec: expansion of one gate name during unrolling
(§4.5): externals are retained verbatim, intrinsics are emitted verbatim,
decomposables are replaced by their fixed recipe, user-defined gates are
expanded recursively through their body, and an unknown gate is an error
(`none`). -/
def expandName (ext : List String) : GateEnv → String → Option (List String)
  | [], g =>
      if g ∈ ext then some [g]
      else if g ∈ intrinsicGates then some [g]
      else lookupRecipe decompTable g
  | (n, body) :: rest, g =>
      if g ∈ ext then some [g]
      else if g ∈ intrinsicGates then some [g]
      else match lookupRecipe decompTable g with
        | some recipe => some recipe
        | none =>
            if g = n then (traverseOpt (expandName ext rest) body).map List.flatten
            else expandName ext rest g

/-- A flattened statement: after operand resolution the unroller's output
is declarations plus basic gate applications; for the name-level tier
claims only the gate names matter. -/
inductive Stmt where
  | qubitDecl (name : String) (size : Nat)
  | bitDecl (name : String) (size : Nat)
  | gateApp (name : String)
  deriving DecidableEq, Repr

/-- Modelled from the spec: a module is the parsed gate definitions plus
the statement body; `unroll` replaces the body by the flattened output
list and drops the (scope-only) gate definitions (§4.6). -/
structure Module where
  gateDefs : GateEnv
  body : List Stmt
  deriving DecidableEq, Repr

/-- Modelled from the spec: visiting one statement during unrolling —
declarations are appended to the output, a gate application is expanded
through the gate tiers (§4.6 dispatch table). -/
def expandStmt (ext : List String) (env : GateEnv) : Stmt → Option (List Stmt)
  | .qubitDecl n sz => some [.qubitDecl n sz]
  | .bitDecl n sz => some [.bitDecl n sz]
  | .gateApp g => (expandName ext env g).map (List.map .gateApp)

/-- Modelled from the spec: `Module.unroll` — walk the body, emit the
flattened statements, return the module whose statement list is the
output (gate definitions are stored in scope, never emitted). -/
def unroll (ext : List String) (m : Module) : Option Module :=
  (traverseOpt (expandStmt ext m.gateDefs) m.body).map fun out =>
    { gateDefs := [], body := out.flatten }

/-- Every name in every recipe of the decomposition catalog is intrinsic. -/
lemma decompTable_intrinsic :
    ∀ p ∈ decompTable, ∀ g ∈ p.2, g ∈ intrinsicGates := by decide

lemma decompTable_lookup_intrinsic {g : String} {recipe : List String}
    (h : lookupRecipe decompTable g = some recipe) :
    ∀ g' ∈ recipe, g' ∈ intrinsicGates := by
  intro g' hg'
  rcases lookupRecipe_mem _ _ _ h with ⟨p, hp, hr⟩
  exact decompTable_intrinsic p hp g' (hr ▸ hg')

/-- Name-level soundness of gate expansion: every emitted name is an
external or an intrinsic. -/
lemma expandName_sound (ext : List String) :
    ∀ (env : GateEnv) (g : String) (out : List String),
      expandName ext env g = some out →
      ∀ g' ∈ out, g' ∈ ext ∨ g' ∈ intrinsicGates := by
  intro env
  induction env with
  | nil =>
      intro g out h g' hg'
      by_cases hext : g ∈ ext
      · simp [expandName, hext] at h
        subst h
        simp only [List.mem_singleton] at hg'
        exact Or.inl (hg' ▸ hext)
      · by_cases hint : g ∈ intrinsicGates
        · simp [expandName, hext, hint] at h
          subst h
          simp only [List.mem_singleton] at hg'
          exact Or.inr (hg' ▸ hint)
        · simp [expandName, hext, hint] at h
          exact Or.inr (decompTable_lookup_intrinsic h g' hg')
  | cons hd rest ih =>
      rcases hd with ⟨n, body⟩
      intro g out h g' hg'
      by_cases hext : g ∈ ext
      · simp [expandName, hext] at h
        subst h
        simp only [List.mem_singleton] at hg'
        exact Or.inl (hg' ▸ hext)
      · by_cases hint : g ∈ intrinsicGates
        · simp [expandName, hext, hint] at h
          subst h
          simp only [List.mem_singleton] at hg'
          exact Or.inr (hg' ▸ hint)
        · rcases hlook : lookupRecipe decompTable g with _ | recipe
          · by_cases heq : g = n
            · subst heq
              have h' : (traverseOpt (expandName ext rest) body).map List.flatten
                  = some out := by
                simpa [expandName, hext, hint, hlook] using h
              rcases Option.map_eq_some'.mp h' with ⟨parts, hparts, hjoin⟩
              subst hjoin
              rcases List.mem_flatten.mp hg' with ⟨part, hpart, hg'part⟩
              rcases traverseOpt_mem _ _ _ hparts part hpart with ⟨b, _hb, hfb⟩
              exact ih b part hfb g' hg'part
            · have h' : expandName ext rest g = some out := by
                simpa [expandName, hext, hint, hlook, heq] using h
              exact ih g out h' g' hg'
          · have h' : out = recipe := by
              have h2 := h
              simp [expandName, hext, hint, hlook] at h2
              exact h2.symm
            exact Or.inr (decompTable_lookup_intrinsic hlook g' (h' ▸ hg'))

/-- Statement-level soundness of a successful unroll: every gate
application in the output body carries an intrinsic or external name. -/
lemma unroll_sound {ext : List String} {m m' : Module}
    (h : unroll ext m = some m') :
    ∀ g : String, Stmt.gateApp g ∈ m'.body → g ∈ intrinsicGates ∨ g ∈ ext := by
  intro g hg
  rcases Option.map_eq_some'.mp h with ⟨out, hout, hm'⟩
  subst hm'
  simp only at hg
  rcases List.mem_flatten.mp hg with ⟨part, hpart, hgpart⟩
  rcases traverseOpt_mem _ _ _ hout part hpart with ⟨s, _hs, hfs⟩
  cases s with
  | qubitDecl n sz =>
      simp [expandStmt] at hfs
      subst hfs
      simp at hgpart
  | bitDecl n sz =>
      simp [expandStmt] at hfs
      subst hfs
      simp at hgpart
  | gateApp g₀ =>
      simp only [expandStmt] at hfs
      rcases Option.map_eq_some'.mp hfs with ⟨names, hnames, hmap⟩
      subst hmap
      rcases List.mem_map.mp hgpart with ⟨name, hname, heq⟩
      have hng : name = g := Stmt.gateApp.inj heq
      rcases expandName_sound ext m.gateDefs g₀ names hnames name hname with h1 | h1
      · exact Or.inr (hng ▸ h1)
      · exact Or.inl (hng ▸ h1)

/-- The output body of a successful unroll contains only statements that
re-expand to themselves against the emptied gate environment. -/
lemma expandStmt_fixed {ext : List String} {m m' : Module}
    (h : unroll ext m = some m') :
    ∀ s ∈ m'.body, expandStmt ext [] s = some [s] := by
  intro s hs
  cases s with
  | qubitDecl n sz => rfl
  | bitDecl n sz => rfl
  | gateApp g =>
      rcases unroll_sound h g hs with hint | hext
      · by_cases hx : g ∈ ext
        · simp [expandStmt, expandName, hx]
        · simp [expandStmt, expandName, hx, hint]
      · simp [expandStmt, expandName, hext]

lemma traverseOpt_fixed {α : Type} (f : α → Option (List α)) :
    ∀ l : List α, (∀ s ∈ l, f s = some [s]) →
      (traverseOpt f l).map List.flatten = some l := by
  intro l
  induction l with
  | nil => intro _; rfl
  | cons x xs ih =>
      intro hall
      have hx : f x = some [x] := hall x (List.mem_cons_self x xs)
      have hxs : (traverseOpt f xs).map List.flatten = some xs :=
        ih fun s hs => hall s (List.mem_cons_of_mem x hs)
      rcases Option.map_eq_some'.mp hxs with ⟨ys, hys, hflat⟩
      simp [traverseOpt, hx, hys, hflat]

/-- C1: for every program accepted by `validate()`, after `Module.unroll()`
every gate application in the output statement list has a name drawn from
the intrinsic gate set union the user-retained external gates passed to
`unroll`. -/
theorem unrolled_gate_names_intrinsic_or_external
    (ext : List String) (m m' : Module) (g : String)
    (h : unroll ext m = some m') (hg : Stmt.gateApp g ∈ m'.body) :
    g ∈ intrinsicGates ∨ g ∈ ext :=
  (unroll_sound h g hg).imp id id

/-- Witness for C1: a module with a user-defined gate and a decomposable
gate unrolls, and the external gate name kept in its output is in the
target set. -/
theorem unrolled_gate_names_intrinsic_or_external_witness :
    "mygate" ∈ intrinsicGates ∨ "mygate" ∈ ["mygate"] :=
  unrolled_gate_names_intrinsic_or_external ["mygate"]
    { gateDefs := [("bell", ["h", "cx", "mygate"])],
      body := [.qubitDecl "q" 2, .gateApp "bell", .gateApp "u3"] }
    { gateDefs := [],
      body := [.qubitDecl "q" 2, .gateApp "h", .gateApp "cx", .gateApp "mygate",
               .gateApp "rz", .gateApp "rx", .gateApp "rz", .gateApp "rx",
               .gateApp "rz"] }
    "mygate" (by rfl) (by decide)

/-- C4: unroll is idempotent — whenever `unroll` succeeds on `m`,
unrolling the already-unrolled module reproduces exactly the same output
statement list, i.e. `unroll (unroll m) = unroll m`. -/
theorem unroll_idempotent (ext : List String) (m m' : Module)
    (h : unroll ext m = some m') :
    unroll ext m' = some m' := by
  have hdefs : m'.gateDefs = [] := by
    rcases Option.map_eq_some'.mp h with ⟨out, _, hm'⟩
    subst hm'
    rfl
  have hfix : ∀ s ∈ m'.body, expandStmt ext [] s = some [s] := expandStmt_fixed h
  have := traverseOpt_fixed (expandStmt ext []) m'.body hfix
  rcases Option.map_eq_some'.mp this with ⟨out, hout, hflat⟩
  simp only [unroll, hdefs, hout, Option.map_some']
  rw [hflat]
  cases m' with
  | mk defs body =>
      simp only at hdefs
      subst hdefs
      rfl

/-- Witness for C4: unrolling the unroll of a concrete module leaves it
unchanged. -/
theorem unroll_idempotent_witness :
    unroll [] { gateDefs := [],
                body := [.qubitDecl "q" 1, .gateApp "rz", .gateApp "rx",
                         .gateApp "rz", .gateApp "rx", .gateApp "rz"] }
      = some { gateDefs := [],
               body := [.qubitDecl "q" 1, .gateApp "rz", .gateApp "rx",
                        .gateApp "rz", .gateApp "rx", .gateApp "rz"] } :=
  unroll_idempotent []
    { gateDefs := [], body := [.qubitDecl "q" 1, .gateApp "u3"] }
    { gateDefs := [],
      body := [.qubitDecl "q" 1, .gateApp "rz", .gateApp "rx", .gateApp "rz",
               .gateApp "rx", .gateApp "rz"] }
    (by rfl)

/-! ## Broadcast expansion and duplicate-qubit detection (spec §4.2, §4.5, P3, S2)

Modelled from the spec: the operand-resolution and broadcast code of the
visitor is absent from the snapshot.  Operands arrive already resolved to
lists of (register, index) identities; broadcasting either chunks a list
of scalar operands into consecutive arity-sized calls, or zips equal-sized
register operands elementwise; the duplicate check runs on each
post-broadcast call. -/

/-- A resolved qubit identity: (register name, index). -/
abbrev QubitId := String × Nat

/-- Gate-application errors of spec §4.5. -/
inductive GateError where
  | duplicate
  | arity
  | broadcastMismatch
  deriving DecidableEq, Repr

/-- Split a list into consecutive chunks of size `k` (fuelled structural
recursion; the fuel `l.length` always suffices since callers force `k ≠ 0`). -/
def chunkListAux {α : Type} (k : Nat) : Nat → List α → List (List α)
  | 0, _ => []
  | _, [] => []
  | fuel + 1, x :: xs => (x :: xs).take k :: chunkListAux k fuel ((x :: xs).drop k)

/-- Split a list into consecutive chunks of size `k`. -/
def chunkList {α : Type} (k : Nat) (l : List α) : List (List α) :=
  chunkListAux k l.length l

/-- Modelled from the spec: broadcast a gate of qubit-arity `k` over its
resolved operands (§4.5 Broadcast).  All-scalar operand lists are chunked
into consecutive arity-sized calls (`cx q[0], q[1], q[1], q[2]` gives two
calls); otherwise `k` register-shaped operands of one common size `N`
(scalars repeated) produce `N` calls of the i-th elements. -/
def broadcastCalls (k : Nat) (ops : List (List QubitId)) :
    Except GateError (List (List QubitId)) :=
  if ops.all fun o => o.length = 1 then
    let flat := ops.flatten
    if k ≠ 0 ∧ flat.length % k = 0 then .ok (chunkList k flat)
    else .error .arity
  else if ops.length = k then
    match (ops.filter fun o => o.length ≠ 1).map List.length with
    | [] => .error .arity
    | n :: rest =>
        if rest.all (· = n) then
          .ok ((List.range n).map fun i =>
            ops.map fun o => if o.length = 1 then o.headD ("", 0) else o.getD i ("", 0))
        else .error .broadcastMismatch
  else .error .arity

/-- A single call mentions the same (register, index) twice. -/
def hasDup : List QubitId → Bool
  | [] => false
  | q :: rest => rest.contains q || hasDup rest

/-- Modelled from the spec: the gate-operand phase of the visitor state
machine (§4.6) — `broadcast → check duplicates → emit`; the duplicate
check runs after broadcast expansion, per expanded call. -/
def visitGateOperands (k : Nat) (ops : List (List QubitId)) :
    Except GateError (List (List QubitId)) :=
  match broadcastCalls k ops with
  | .error e => .error e
  | .ok calls => if calls.any hasDup then .error .duplicate else .ok calls

/-- C2: the duplicate-qubit check runs after broadcast expansion — a gate
application succeeds exactly when no single post-broadcast call mentions a
(register, index) twice, and raises Duplicate exactly when some call does;
concretely `cx q[0], q[1], q[1], q[2]` on `qubit[3] q` expands to
`cx q[0],q[1]; cx q[1],q[2]` with no error, while `cx q[1], q[1]` errors. -/
theorem duplicate_check_after_broadcast :
    (∀ (k : Nat) (ops calls : List (List QubitId)),
        broadcastCalls k ops = .ok calls →
        (visitGateOperands k ops = .ok calls ↔ ∀ c ∈ calls, hasDup c = false) ∧
        (visitGateOperands k ops = .error .duplicate ↔ ∃ c ∈ calls, hasDup c = true)) ∧
    visitGateOperands 2 [[("q", 0)], [("q", 1)], [("q", 1)], [("q", 2)]]
      = .ok [[("q", 0), ("q", 1)], [("q", 1), ("q", 2)]] ∧
    visitGateOperands 2 [[("q", 1)], [("q", 1)]] = .error .duplicate := by
  refine ⟨?_, by rfl, by rfl⟩
  intro k ops calls h
  rcases hany : calls.any hasDup with _ | _
  · constructor
    · simp only [visitGateOperands, h, hany]
      constructor
      · intro _ c hc
        have := List.any_eq_false.mp (by simpa using hany) c hc
        simpa using this
      · intro _; rfl
    · simp only [visitGateOperands, h, hany]
      constructor
      · intro hcontra
        exact absurd hcontra (by simp)
      · intro ⟨c, hc, hdup⟩
        have := List.any_eq_false.mp (by simpa using hany) c hc
        rw [hdup] at this
        exact absurd rfl this
  · rcases List.any_eq_true.mp hany with ⟨c, hc, hdup⟩
    constructor
    · simp only [visitGateOperands, h, hany]
      constructor
      · intro hcontra
        exact absurd hcontra (by simp)
      · intro hall
        have := hall c hc
        rw [hdup] at this
        exact absurd this (by simp)
    · simp only [visitGateOperands, h, hany]
      exact ⟨fun _ => ⟨c, hc, hdup⟩, fun _ => rfl⟩

/-- Witness for C2: the general success/failure characterization applied
to the duplicate pair `cx q[1], q[1]`, whose single post-broadcast call
repeats the identity. -/
theorem duplicate_check_after_broadcast_witness :
    (visitGateOperands 2 [[("q", 1)], [("q", 1)]] = .ok [[("q", 1), ("q", 1)]] ↔
      ∀ c ∈ [[(("q" : String), (1 : Nat)), ("q", 1)]], hasDup c = false) ∧
    (visitGateOperands 2 [[("q", 1)], [("q", 1)]] = .error .duplicate ↔
      ∃ c ∈ [[(("q" : String), (1 : Nat)), ("q", 1)]], hasDup c = true) :=
  duplicate_check_after_broadcast.1 2 [[("q", 1)], [("q", 1)]]
    [[("q", 1), ("q", 1)]] (by rfl)

/-! ## Multi-bit branch expansion (spec §4.6 BranchingStatement, §4.8, S3)

Modelled from the spec: the analyzer helper that expands a comparison of a
classical bit-register against an integer literal is absent from the
snapshot.  The spec maps `c == K` over `bit[n] c` to a nested chain of
single-bit tests in MSB-to-LSB order, `c[0]` being the MSB, each polarity
matching the corresponding bit of the binary representation of `K`. -/

/-- A statement of the branch-expansion fragment: a single-bit equality
test guarding a statement, or a basic gate application. -/
inductive BStmt where
  | ifBitEq (reg : String) (idx : Nat) (val : Bool) (body : BStmt)
  | gate (name : String) (reg : String) (idx : Nat)
  deriving DecidableEq, Repr

/-- Nest a list of single-bit tests around a body, first test outermost. -/
def chainTests (c : String) (tests : List (Nat × Bool)) (body : BStmt) : BStmt :=
  tests.foldr (fun t acc => .ifBitEq c t.1 t.2 acc) body

/-- Modelled from the spec: expansion of `c == K` over `bit[n] c` — the
test at nesting level `i` (outermost `i = 0`) checks `c[i]` against bit
`n - 1 - i` of `K`, so `c[0]` is the MSB (§4.8, S3). -/
def expandBitEq (c : String) (n K : Nat) (body : BStmt) : BStmt :=
  chainTests c ((List.range n).map fun i => (i, K.testBit (n - 1 - i))) body

/-- Execution of the fragment against a fixed bit-register state `σ`
(`σ i` is the value of `c[i]`): a guarded statement emits its body's
gates when the tested bit matches, nothing otherwise. -/
def execB (σ : Nat → Bool) : BStmt → List (String × String × Nat)
  | .ifBitEq _ i v body => if σ i = v then execB σ body else []
  | .gate g r i => [(g, r, i)]

/-- The MSB-first value of the first `n` bits of `σ`
(`c[0]` most significant). -/
def regValMSB (σ : Nat → Bool) : Nat → Nat
  | 0 => 0
  | n + 1 => 2 * regValMSB σ n + (if σ n then 1 else 0)

lemma regValMSB_lt (σ : Nat → Bool) : ∀ n, regValMSB σ n < 2 ^ n := by
  intro n
  induction n with
  | zero => simp [regValMSB]
  | succ n ih =>
      simp only [regValMSB, pow_succ]
      by_cases h : σ n <;> simp [h] <;> omega

lemma execB_chainTests (σ : Nat → Bool) (c : String) (body : BStmt) :
    ∀ tests : List (Nat × Bool),
      execB σ (chainTests c tests body)
        = if ∀ t ∈ tests, σ t.1 = t.2 then execB σ body else [] := by
  intro tests
  induction tests with
  | nil => simp [chainTests]
  | cons t rest ih =>
      rcases t with ⟨i, v⟩
      have hstep : execB σ (chainTests c ((i, v) :: rest) body)
          = if σ i = v then execB σ (chainTests c rest body) else [] := rfl
      rw [hstep]
      by_cases hv : σ i = v
      · rw [if_pos hv, ih]
        by_cases hall : ∀ t ∈ rest, σ t.1 = t.2
        · rw [if_pos hall, if_pos ?_]
          intro t ht
          rcases List.mem_cons.mp ht with h | h
          · subst h; exact hv
          · exact hall t h
        · rw [if_neg hall,
              if_neg fun hcontra => hall fun t ht => hcontra t (List.mem_cons_of_mem _ ht)]
      · rw [if_neg hv,
            if_neg fun hcontra => hv (hcontra (i, v) (List.mem_cons_self _ _))]

/-- Agreement of `σ` with the MSB-first binary representation of `K` on
all `n` bit positions is the same as the register valuing to `K`. -/
lemma bits_agree_iff_regValMSB (σ : Nat → Bool) :
    ∀ (n K : Nat), K < 2 ^ n →
      ((∀ i < n, σ i = K.testBit (n - 1 - i)) ↔ regValMSB σ n = K) := by
  intro n
  induction n with
  | zero =>
      intro K hK
      have : K = 0 := by simpa using hK
      subst this
      simp [regValMSB]
  | succ n ih =>
      intro K hK
      have hK2 : K / 2 < 2 ^ n := by
        have := hK
        rw [pow_succ] at this
        omega
      have ihK := ih (K / 2) hK2
      constructor
      · intro hall
        have hhi : ∀ i < n, σ i = (K / 2).testBit (n - 1 - i) := by
          intro i hi
          have := hall i (Nat.lt_succ_of_lt hi)
          rwa [show n + 1 - 1 - i = (n - 1 - i) + 1 by omega,
               Nat.testBit_add_one] at this
        have hlo : σ n = K.testBit 0 := by
          simpa using hall n (Nat.lt_succ_self n)
        have hval : regValMSB σ n = K / 2 := ihK.mp hhi
        simp only [regValMSB, hval]
        rw [Nat.testBit_zero] at hlo
        rcases hb : σ n with _ | _ <;> rw [hb] at hlo <;> simp at hlo <;>
          simp [hb] <;> omega
      · intro hval i hi
        have hsplit : regValMSB σ (n + 1)
            = 2 * regValMSB σ n + (if σ n then 1 else 0) := rfl
        rw [hval] at hsplit
        have hdiv : regValMSB σ n = K / 2 := by
          by_cases hb : σ n <;> simp [hb] at hsplit <;> omega
        have hmod : (if σ n then 1 else 0) = K % 2 := by
          by_cases hb : σ n <;> simp [hb] at hsplit ⊢ <;> omega
        rcases Nat.lt_succ_iff_lt_or_eq.mp hi with hi' | hi'
        · have := (ihK.mpr hdiv) i hi'
          rwa [show n + 1 - 1 - i = (n - 1 - i) + 1 by omega,
               Nat.testBit_add_one]
        · rw [hi']
          rw [show n + 1 - 1 - n = 0 by omega, Nat.testBit_zero]
          cases hb : σ n <;> rw [hb] at hmod <;> simp at hmod ⊢ <;> omega

/-- C3: unrolling a branch whose condition compares a bit-register to an
integer literal yields a nested chain of single-bit tests, MSB-to-LSB with
`c[0]` the MSB and polarity matching the binary representation of the
literal (semantically: the chain fires exactly when the register's
MSB-first value equals the literal); for `if (c == 3)` on `bit[4] c` with
body `h q[0]` the output is
`if (c[0]==false) if (c[1]==false) if (c[2]==true) if (c[3]==true) h q[0]`. -/
theorem multibit_branch_expansion :
    (∀ (σ : Nat → Bool) (c : String) (n K : Nat) (body : BStmt), K < 2 ^ n →
        execB σ (expandBitEq c n K body)
          = if regValMSB σ n = K then execB σ body else []) ∧
    expandBitEq "c" 4 3 (.gate "h" "q" 0)
      = .ifBitEq "c" 0 false (.ifBitEq "c" 1 false (.ifBitEq "c" 2 true
          (.ifBitEq "c" 3 true (.gate "h" "q" 0)))) := by
  constructor
  · intro σ c n K body hK
    rw [expandBitEq, execB_chainTests]
    have hiff : (∀ t ∈ (List.range n).map fun i => (i, K.testBit (n - 1 - i)),
        σ t.1 = t.2) ↔ ∀ i < n, σ i = K.testBit (n - 1 - i) := by
      constructor
      · intro h i hi
        exact h (i, K.testBit (n - 1 - i))
          (List.mem_map.mpr ⟨i, List.mem_range.mpr hi, rfl⟩)
      · intro h t ht
        rcases List.mem_map.mp ht with ⟨i, hi, hti⟩
        subst hti
        exact h i (List.mem_range.mp hi)
    rw [if_congr (Iff.trans hiff (bits_agree_iff_regValMSB σ n K hK)) rfl rfl]
  · rfl

/-- Witness for C3: the expanded chain for `c == 3` on `bit[4] c`, run
against the register state `0011` (value 3), reduces to its body. -/
theorem multibit_branch_expansion_witness :
    execB (fun i => decide (2 ≤ i)) (expandBitEq "c" 4 3 (.gate "h" "q" 0))
      = if regValMSB (fun i => decide (2 ≤ i)) 4 = 3
        then execB (fun i => decide (2 ≤ i)) (.gate "h" "q" 0) else [] :=
  multibit_branch_expansion.1 (fun i => decide (2 ≤ i)) "c" 4 3
    (.gate "h" "q" 0) (by decide)

/-! ## While-loop unrolling (spec §4.6 WhileLoop, §5, S4)

Modelled from the spec: the WhileLoop handler of the visitor is absent
from the snapshot.  The condition is evaluated against the scope; if it is
constant-foldable the body is unrolled iteration by iteration up to the
`max_loop_iters` bound; a condition depending on a quantum measurement
result raises Unsupported and emits nothing. -/

/-- Classical integer expressions appearing in loop conditions and
bodies; a `measBit` leaf reads a measurement result. -/
inductive WExpr where
  | lit (n : Int)
  | var (name : String)
  | measBit (reg : String) (idx : Nat)
  | add (a b : WExpr)
  deriving DecidableEq, Repr

/-- Loop conditions: comparisons of classical expressions. -/
inductive WCond where
  | lt (a b : WExpr)
  | eq (a b : WExpr)
  deriving DecidableEq, Repr

/-- A classical scope: integer value per variable name. -/
abbrev WScope := String → Int

/-- The expression reads a quantum measurement result. -/
def WExpr.dependsOnMeasurement : WExpr → Bool
  | .lit _ => false
  | .var _ => false
  | .measBit _ _ => true
  | .add a b => a.dependsOnMeasurement || b.dependsOnMeasurement

/-- The condition reads a quantum measurement result. -/
def WCond.dependsOnMeasurement : WCond → Bool
  | .lt a b => a.dependsOnMeasurement || b.dependsOnMeasurement
  | .eq a b => a.dependsOnMeasurement || b.dependsOnMeasurement

/-- Constant folding of a classical expression against the scope;
measurement bits are not constant-foldable. -/
def WExpr.eval (σ : WScope) : WExpr → Option Int
  | .lit n => some n
  | .var x => some (σ x)
  | .measBit _ _ => none
  | .add a b =>
      match a.eval σ, b.eval σ with
      | some x, some y => some (x + y)
      | _, _ => none

/-- Constant folding of a loop condition. -/
def WCond.eval (σ : WScope) : WCond → Option Bool
  | .lt a b =>
      match a.eval σ, b.eval σ with
      | some x, some y => some (decide (x < y))
      | _, _ => none
  | .eq a b =>
      match a.eval σ, b.eval σ with
      | some x, some y => some (decide (x = y))
      | _, _ => none

/-- A statement of a while-loop body: a gate application whose operand
index is a classical expression, or a classical assignment. -/
inductive WStmt where
  | gate (name : String) (reg : String) (idx : WExpr)
  | assign (v : String) (e : WExpr)
  deriving DecidableEq, Repr

/-- A gate emitted by loop unrolling: name, register, resolved index. -/
abbrev EmittedGate := String × String × Int

/-- Unrolling errors of the WhileLoop handler (spec §7). -/
inductive UnrollErr where
  | unsupported
  | maxLoopItersExceeded
  | badExpression
  deriving DecidableEq, Repr

/-- Run one pass of the body: emit gates with folded operand indices and
apply assignments to the scope. -/
def runBody (σ : WScope) : List WStmt → Option (List EmittedGate × WScope)
  | [] => some ([], σ)
  | .gate g r ie :: rest =>
      match ie.eval σ with
      | none => none
      | some i => (runBody σ rest).map fun p => ((g, r, i) :: p.1, p.2)
  | .assign v e :: rest =>
      match e.eval σ with
      | none => none
      | some x => runBody (fun y => if y = v then x else σ y) rest

/-- Iterate the loop; the fuel is the number of iterations still allowed
by `max_loop_iters`. -/
def whileAux (cond : WCond) (body : List WStmt) :
    Nat → WScope → Except UnrollErr (List EmittedGate × WScope)
  | fuel, σ =>
      match cond.eval σ with
      | none => .error .badExpression
      | some false => .ok ([], σ)
      | some true =>
          match fuel with
          | 0 => .error .maxLoopItersExceeded
          | fuel' + 1 =>
              match runBody σ body with
              | none => .error .badExpression
              | some (gs, σ') =>
                  match whileAux cond body fuel' σ' with
                  | .error e => .error e
                  | .ok (gs', σ'') => .ok (gs ++ gs', σ'')

/-- Modelled from the spec: the WhileLoop handler (§4.6): a condition
depending on a quantum measurement result raises Unsupported and emits
nothing; otherwise the body is unrolled iteration by iteration, the
`maxLoopIters` guard aborting runaway unrolling (§5). -/
def unrollWhile (maxLoopIters : Nat) (σ : WScope) (cond : WCond)
    (body : List WStmt) : Except UnrollErr (List EmittedGate × WScope) :=
  if cond.dependsOnMeasurement then .error .unsupported
  else whileAux cond body maxLoopIters σ

/-- The S4 loop `int i = 0; while (i < 3) { h q[i]; i += 1; }`. -/
def s4Cond : WCond := .lt (.var "i") (.lit 3)

/-- The S4 loop body. -/
def s4Body : List WStmt :=
  [.gate "h" "q" (.var "i"), .assign "i" (.add (.var "i") (.lit 1))]

/-- C6: while-loop unrolling — the constant-foldable S4 loop unrolls to
exactly `h q[0]; h q[1]; h q[2]` within the `max_loop_iters` bound, a
bound smaller than the trip count aborts with the loop-iteration error,
and any condition depending on a quantum measurement result yields
Unsupported with nothing emitted. -/
theorem while_loop_unrolling :
    ((unrollWhile 100 (fun _ => 0) s4Cond s4Body).map Prod.fst
        = .ok [("h", "q", (0 : Int)), ("h", "q", 1), ("h", "q", 2)]) ∧
    ((unrollWhile 2 (fun _ => 0) s4Cond s4Body).map Prod.fst
        = .error .maxLoopItersExceeded) ∧
    (∀ (maxLoopIters : Nat) (σ : WScope) (cond : WCond) (body : List WStmt),
        cond.dependsOnMeasurement = true →
        unrollWhile maxLoopIters σ cond body = .error .unsupported) := by
  refine ⟨by rfl, by rfl, ?_⟩
  intro maxLoopIters σ cond body h
  simp [unrollWhile, h]

/-- Witness for C6: a loop whose condition reads the measurement bit
`c[0]` is rejected as Unsupported. -/
theorem while_loop_unrolling_witness :
    unrollWhile 100 (fun _ => 0) (.lt (.measBit "c" 0) (.lit 1)) s4Body
      = .error .unsupported :=
  while_loop_unrolling.2.2 100 (fun _ => 0) (.lt (.measBit "c" 0) (.lit 1))
    s4Body (by rfl)

/-! ## Qubit-order reversal (spec §4.8, P7)

Modelled from the spec and changelog: `QasmModule.reverse_qubit_order`
is absent from the snapshot.  It maps every register operand index `i`
of every operation in the output list to `size - 1 - i` (indices are
Python integers, hence `Int` here). -/

/-- An operation of the output statement list with resolved register
operands. -/
structure ROp where
  name : String
  operands : List (String × Int)
  deriving DecidableEq, Repr

/-- The output-list view a post-unroll transform rewrites: declared
register sizes plus the operations. -/
structure RModule where
  regs : List (String × Int)
  ops : List ROp
  deriving DecidableEq, Repr

/-- Size of a declared register (0 for an unknown name). -/
def regSize (regs : List (String × Int)) (r : String) : Int :=
  (lookupRecipe regs r).getD 0

/-- Modelled from the spec: `reverse_qubit_order` applies the permutation
index ↦ size − 1 − index to every register operand of every operation in
the output list (§4.8). -/
def reverse_qubit_order (m : RModule) : RModule :=
  { m with
    ops := m.ops.map fun op =>
      { op with
        operands := op.operands.map fun p =>
          (p.1, regSize m.regs p.1 - 1 - p.2) } }

lemma map_fixpoints {α : Type} (f : α → α) :
    ∀ l : List α, (∀ x ∈ l, f x = x) → l.map f = l := by
  intro l
  induction l with
  | nil => intro _; rfl
  | cons x xs ih =>
      intro h
      simp only [List.map_cons]
      rw [h x (List.mem_cons_self x xs), ih fun y hy => h y (List.mem_cons_of_mem x hy)]

/-- C7: `reverse_qubit_order` is an involution — applying it twice
returns the output statement list (indeed the whole module view) to its
original value, since `size − 1 − (size − 1 − i) = i`. -/
theorem reverse_qubit_order_involutive (m : RModule) :
    reverse_qubit_order (reverse_qubit_order m) = m := by
  cases m with
  | mk regs ops =>
      simp only [reverse_qubit_order, List.map_map]
      congr 1
      refine map_fixpoints _ _ ?_
      intro op _
      cases op with
      | mk name operands =>
          simp only [Function.comp, List.map_map]
          congr 1
          refine map_fixpoints _ _ ?_
          intro p _
          cases p with
          | mk r i =>
              simp only [Function.comp]
              congr 1
              omega

/-! ## Depth tracker (spec §4.7, P8)

Modelled from the spec: the depth-tracking code of the visitor is absent
from the snapshot.  An integer counter is kept per qubit/clbit identity;
`touch(bits)` sets each counter in `bits` to `1 + max(counters in bits)`;
a branching block advances all bits touched inside it together by a
single unit, regardless of how many gates the block contains. -/

/-- One emission seen by the depth tracker: a gate or measurement touching
a list of bit identities, or a branching block listing the touched bits of
each gate emitted inside it. -/
inductive DOp where
  | op (bits : List Nat)
  | branch (inner : List (List Nat))
  deriving DecidableEq, Repr

/-- Maximum of the counters over a list of bits (0 for no bits). -/
def maxOver (ctr : Nat → Nat) : List Nat → Nat
  | [] => 0
  | b :: rest => max (ctr b) (maxOver ctr rest)

/-- Modelled from the spec: `touch(bits)` sets each counter in `bits` to
`1 + max(counters in bits)` (§4.7). -/
def touch (ctr : Nat → Nat) (bits : List Nat) : Nat → Nat :=
  fun b => if b ∈ bits then maxOver ctr bits + 1 else ctr b

/-- Modelled from the spec: the counter update of one emission — a plain
gate/measurement touches its bits; a branching block touches every bit
used inside it once, as a single unit (§4.6 BranchingStatement, §4.7). -/
def stepDepth (ctr : Nat → Nat) : DOp → (Nat → Nat)
  | .op bits => touch ctr bits
  | .branch inner => touch ctr inner.flatten

/-- Fold the depth updates over the emitted operation stream. -/
def runDepth : List DOp → (Nat → Nat) → (Nat → Nat)
  | [], ctr => ctr
  | o :: rest, ctr => runDepth rest (stepDepth ctr o)

/-- The number of emitted gate/measurement operations: each gate inside a
branching block is an emission of its own. -/
def countOps : List DOp → Nat
  | [] => 0
  | .op _ :: rest => 1 + countOps rest
  | .branch inner :: rest => inner.length + countOps rest

/-- All bit identities touched anywhere in the stream. -/
def touchedBits : List DOp → List Nat
  | [] => []
  | .op bits :: rest => bits ++ touchedBits rest
  | .branch inner :: rest => inner.flatten ++ touchedBits rest

/-- Modelled from the spec: the module-level depth is the maximum over
all counters after the walk, counters starting at zero (§4.7). -/
def depth (prog : List DOp) : Nat :=
  maxOver (runDepth prog fun _ => 0) (touchedBits prog)

lemma maxOver_le {ctr : Nat → Nat} {n : Nat} (h : ∀ b, ctr b ≤ n) :
    ∀ bits, maxOver ctr bits ≤ n := by
  intro bits
  induction bits with
  | nil => exact Nat.zero_le n
  | cons b rest ih => exact max_le (h b) ih

lemma touch_le {ctr : Nat → Nat} {n : Nat} (h : ∀ b, ctr b ≤ n) :
    ∀ (bits : List Nat) (b : Nat), touch ctr bits b ≤ n + 1 := by
  intro bits b
  by_cases hb : b ∈ bits
  · simp only [touch, hb, if_true]
    exact Nat.add_le_add_right (maxOver_le h bits) 1
  · simp only [touch, hb, if_false]
    exact Nat.le_succ_of_le (h b)

lemma runDepth_le :
    ∀ (prog : List DOp) (ctr : Nat → Nat) (n : Nat),
      (∀ b, ctr b ≤ n) → ∀ b, runDepth prog ctr b ≤ n + countOps prog := by
  intro prog
  induction prog with
  | nil => intro ctr n h b; simpa [runDepth, countOps] using h b
  | cons o rest ih =>
      intro ctr n h b
      cases o with
      | op bits =>
          have hstep : ∀ b', stepDepth ctr (.op bits) b' ≤ n + 1 :=
            fun b' => touch_le h bits b'
          have := ih (stepDepth ctr (.op bits)) (n + 1) hstep b
          simpa [runDepth, countOps, Nat.add_assoc, Nat.add_comm,
                 Nat.add_left_comm] using this
      | branch inner =>
          rcases hlen : inner.length with _ | k
          · have hinner : inner = [] := List.length_eq_zero.mp hlen
            subst hinner
            have hstep : ∀ b', stepDepth ctr (.branch []) b' ≤ n := by
              intro b'
              simpa [stepDepth, touch] using h b'
            have := ih (stepDepth ctr (.branch [])) n hstep b
            simpa [runDepth, countOps] using this
          · have hstep : ∀ b', stepDepth ctr (.branch inner) b' ≤ n + 1 :=
              fun b' => touch_le h inner.flatten b'
            have := ih (stepDepth ctr (.branch inner)) (n + 1) hstep b
            have hk : n + 1 + countOps rest ≤ n + (inner.length + countOps rest) := by
              rw [hlen]; omega
            calc runDepth (DOp.branch inner :: rest) ctr b
                = runDepth rest (stepDepth ctr (.branch inner)) b := rfl
              _ ≤ n + 1 + countOps rest := this
              _ ≤ n + (inner.length + countOps rest) := hk
              _ = n + countOps (DOp.branch inner :: rest) := rfl

/-- C8: for every emitted operation stream the circuit depth is at most
the number of emitted gate/measurement operations; `touch(bits)` sets
every counter in `bits` to `1 + max` over the touched counters; and all
gates inside one branching block advance the block's touched counters
together by a single unit regardless of the block's gate count. -/
theorem depth_le_op_count :
    (∀ prog : List DOp, depth prog ≤ countOps prog) ∧
    (∀ (ctr : Nat → Nat) (bits : List Nat) (b : Nat), b ∈ bits →
        touch ctr bits b = maxOver ctr bits + 1) ∧
    (∀ (ctr : Nat → Nat) (inner : List (List Nat)) (b : Nat),
        b ∈ inner.flatten →
        stepDepth ctr (.branch inner) b = maxOver ctr inner.flatten + 1) := by
  refine ⟨?_, ?_, ?_⟩
  · intro prog
    have hrun : ∀ b, runDepth prog (fun _ => 0) b ≤ countOps prog := by
      intro b
      simpa using runDepth_le prog (fun _ => 0) 0 (fun _ => Nat.le_refl 0) b
    exact maxOver_le hrun (touchedBits prog)
  · intro ctr bits b hb
    simp [touch, hb]
  · intro ctr inner b hb
    simp [stepDepth, touch, hb]

/-- Witness for C8: a two-gate branching block advances the counters of
its touched bits by exactly one unit. -/
theorem depth_le_op_count_witness :
    stepDepth (fun _ => 0) (.branch [[0], [1]]) 0
      = maxOver (fun _ => 0) [[0], [1]].flatten + 1 :=
  depth_le_op_count.2.2 (fun _ => 0) [[0], [1]] 0 (by decide)

/-! ## Gate dispatcher: the U3 recipe (spec §4.5, docs/gate_decompositions.md)

Modelled from the spec: `src/pyqasm/maps/gates.py` is absent from the
snapshot; the fixed U3 recipe is given by the spec and by the repository's
`docs/gate_decompositions.md`. -/

/-- A parameterized single-qubit gate application: name, angle, qubit.
The angle field type is the parameter field `A` (the reference computes
with floats; any field with a distinguished `π` works for the recipe's
parameter arithmetic). -/
structure PGate (A : Type) where
  name : String
  angle : A
  qubit : Nat
  deriving DecidableEq, Repr

/-- Modelled from the spec: the fixed decomposition of `U3(θ, φ, λ)` on a
qubit `q` (docs/gate_decompositions.md): `Rz(λ) · Rx(π/2) · Rz(θ+π) ·
Rx(π/2) · Rz(φ+3π)`, listed in circuit order. -/
def u3_decomposition {A : Type} [Field A] (pi : A) (θ φ lam : A) (q : Nat) :
    List (PGate A) :=
  [⟨"rz", lam, q⟩, ⟨"rx", pi / 2, q⟩, ⟨"rz", θ + pi, q⟩,
   ⟨"rx", pi / 2, q⟩, ⟨"rz", φ + 3 * pi, q⟩]

/-- Modelled from the spec: the Gate Dispatcher's handling of a
parameterized decomposable single-qubit gate — `u3` is rewritten by its
fixed recipe, with a parameter-arity check. -/
def dispatchParamGate {A : Type} [Field A] (pi : A) (name : String)
    (params : List A) (q : Nat) : Option (List (PGate A)) :=
  if name = "u3" ∨ name = "U3" then
    match params with
    | [θ, φ, lam] => some (u3_decomposition pi θ φ lam q)
    | _ => none
  else none

/-- C5: the dispatcher decomposes every `U3(θ, φ, λ)` application into
exactly the fixed sequence Rz(λ), Rx(π/2), Rz(θ+π), Rx(π/2), Rz(φ+3π),
all applied to the same qubit, for all parameter values. -/
theorem u3_fixed_decomposition {A : Type} [Field A] (pi : A) (θ φ lam : A)
    (q : Nat) :
    dispatchParamGate pi "u3" [θ, φ, lam] q
      = some [⟨"rz", lam, q⟩, ⟨"rx", pi / 2, q⟩, ⟨"rz", θ + pi, q⟩,
              ⟨"rx", pi / 2, q⟩, ⟨"rz", φ + 3 * pi, q⟩] ∧
    (u3_decomposition pi θ φ lam q).map PGate.name
      = ["rz", "rx", "rz", "rx", "rz"] ∧
    (u3_decomposition pi θ φ lam q).map PGate.qubit = [q, q, q, q, q] := by
  refine ⟨?_, rfl, rfl⟩
  simp [dispatchParamGate, u3_decomposition]

/-! ## The Cython `kronecker_factor` kernels
(`pyqasm/linalg_cy.pyx` and `src/pyqasm/accelerate/linalg.pyx`)

Translated from the source.  Complex-double arithmetic is idealized: the
scalar type `K`, its arithmetic, the complex square root and the
magnitude/real-part observations the algorithm uses are supplied as an
abstract operation record, so both translations preserve the exact
operation sequence of their files without committing to IEEE-754
floating point.  The `dtype == cdouble` assertion of `linalg_cy.pyx` and
the typed memoryview of the accelerate version are both enforced by the
input type `K` itself. -/

/-- The complex-scalar operations `kronecker_factor` uses: `R` is the
ordered type of magnitudes and real parts, `K` the complex-double type. -/
structure ComplexOps (R K : Type) where
  zero : K
  one : K
  neg : K → K
  mul : K → K → K
  sub : K → K → K
  div : K → K → K
  sqrt : K → K
  abs : K → R
  re : K → R
  isZero : K → Bool

/-- A 2×2 complex matrix, row-major. -/
structure M2 (K : Type) where
  e00 : K
  e01 : K
  e10 : K
  e11 : K
  deriving DecidableEq, Repr

/-- Entry assignment `m[i, j] = v` (indices 0/1). -/
def M2.set {K : Type} (m : M2 K) (i j : Nat) (v : K) : M2 K :=
  if i = 0 then
    (if j = 0 then { m with e00 := v } else { m with e01 := v })
  else
    (if j = 0 then { m with e10 := v } else { m with e11 := v })

/-- Entry read `m[i, j]` (indices 0/1). -/
def M2.get {K : Type} (m : M2 K) (i j : Nat) : K :=
  if i = 0 then (if j = 0 then m.e00 else m.e01)
  else (if j = 0 then m.e10 else m.e11)

/-- Read `mat[i, j]` of the 4×4 input (the ndarray is rectangular, so the
default is never reached on checked inputs). -/
def matGet {K : Type} (zero : K) (mat : List (List K)) (i j : Nat) : K :=
  (mat.getD i []).getD j zero

/-- Row-major index pairs of an `n × n` scan, as in the nested
`for i in range(n): for j in range(n):` loops. -/
def scanPairs (n : Nat) : List (Nat × Nat) :=
  ((List.range n).map fun i => (List.range n).map fun j => (i, j)).flatten

/-- The max-entry scan of `kronecker_factor`: running state
`(a, b, max_abs)` starting at `(0, 0, 0.0)`, updated on strict increase
of `abs(mat[i, j])` in row-major order. -/
def scanMax {R K : Type} [LinearOrderedRing R] (ops : ComplexOps R K)
    (mat : List (List K)) : Nat × Nat :=
  let st := (scanPairs 4).foldl
    (fun (st : Nat × Nat × R) ij =>
      let v := ops.abs (matGet ops.zero mat ij.1 ij.2)
      if st.2.2 < v then (ij.1, ij.2, v) else st)
    (0, 0, 0)
  (st.1, st.2.1)

/-- The factor-extraction loops of `kronecker_factor`, filling `f1` and
`f2` from zero-initialized 2×2 matrices:
`f1[(a >> 1) ^ i, (b >> 1) ^ j] = mat[a ^ (i << 1), b ^ (j << 1)]` and
`f2[(a & 1) ^ i, (b & 1) ^ j] = mat[a ^ i, b ^ j]`. -/
def extractFactors {R K : Type} (ops : ComplexOps R K)
    (mat : List (List K)) (a b : Nat) : M2 K × M2 K :=
  (scanPairs 2).foldl
    (fun (st : M2 K × M2 K) ij =>
      let i := ij.1
      let j := ij.2
      (st.1.set ((a >>> 1) ^^^ i) ((b >>> 1) ^^^ j)
          (matGet ops.zero mat (a ^^^ (i <<< 1)) (b ^^^ (j <<< 1))),
       st.2.set ((a &&& 1) ^^^ i) ((b &&& 1) ^^^ j)
          (matGet ops.zero mat (a ^^^ i) (b ^^^ j))))
    (⟨ops.zero, ops.zero, ops.zero, ops.zero⟩,
     ⟨ops.zero, ops.zero, ops.zero, ops.zero⟩)

/-- Determinant of a 2×2 complex matrix. -/
def det2 {R K : Type} (ops : ComplexOps R K) (m : M2 K) : K :=
  ops.sub (ops.mul m.e00 m.e11) (ops.mul m.e01 m.e10)

/-- Elementwise division of a 2×2 matrix by a scalar (`f /= det`). -/
def scaleDiv {R K : Type} (ops : ComplexOps R K) (m : M2 K) (d : K) : M2 K :=
  ⟨ops.div m.e00 d, ops.div m.e01 d, ops.div m.e10 d, ops.div m.e11 d⟩

/-- Elementwise negation of a 2×2 matrix (`f1 *= -1`). -/
def scaleNeg {R K : Type} (ops : ComplexOps R K) (m : M2 K) : M2 K :=
  ⟨ops.neg m.e00, ops.neg m.e01, ops.neg m.e10, ops.neg m.e11⟩

namespace LinalgCy

/-- Translated from `pyqasm/linalg_cy.pyx`: `kronecker_factor(mat)` —
asserts `x_dim == 4` and `y_dim == 4` (`none` on failure), scans for the
max-magnitude entry, extracts the two 2×2 factors, normalizes each by the
square root of its determinant (falling back to 1 on a falsy root, as
`np.sqrt(det) or 1` does), computes the global factor
`g = mat[a, b] / (f1[a>>1, b>>1] * f2[a&1, b&1])`, and negates `g` and
`f1` when `g.real < 0`. -/
def kronecker_factor {R K : Type} [LinearOrderedRing R]
    (ops : ComplexOps R K) (mat : List (List K)) :
    Option (K × M2 K × M2 K) :=
  if mat.length = 4 ∧ (mat.headD []).length = 4 then
    let ab := scanMax ops mat
    let a := ab.1
    let b := ab.2
    let fs := extractFactors ops mat a b
    let s1 := ops.sqrt (det2 ops fs.1)
    let det_f1 := if ops.isZero s1 then ops.one else s1
    let s2 := ops.sqrt (det2 ops fs.2)
    let det_f2 := if ops.isZero s2 then ops.one else s2
    let f1 := scaleDiv ops fs.1 det_f1
    let f2 := scaleDiv ops fs.2 det_f2
    let g := ops.div (matGet ops.zero mat a b)
      (ops.mul (f1.get (a >>> 1) (b >>> 1)) (f2.get (a &&& 1) (b &&& 1)))
    if ops.re g < 0 then some (ops.neg g, scaleNeg ops f1, f2)
    else some (g, f1, f2)
  else none

end LinalgCy

namespace Accelerate

/-- Translated from `src/pyqasm/accelerate/linalg.pyx`:
`_kronecker_factor(mat)` — asserts `x_dim == y_dim == 4` (`none` on
failure) and then performs the same max-entry scan, factor extraction,
determinant normalization and sign correction as the standalone module. -/
def kronecker_factor {R K : Type} [LinearOrderedRing R]
    (ops : ComplexOps R K) (mat : List (List K)) :
    Option (K × M2 K × M2 K) :=
  if mat.length = (mat.headD []).length ∧ (mat.headD []).length = 4 then
    let ab := scanMax ops mat
    let a := ab.1
    let b := ab.2
    let fs := extractFactors ops mat a b
    let s1 := ops.sqrt (det2 ops fs.1)
    let det_f1 := if ops.isZero s1 then ops.one else s1
    let s2 := ops.sqrt (det2 ops fs.2)
    let det_f2 := if ops.isZero s2 then ops.one else s2
    let f1 := scaleDiv ops fs.1 det_f1
    let f2 := scaleDiv ops fs.2 det_f2
    let g := ops.div (matGet ops.zero mat a b)
      (ops.mul (f1.get (a >>> 1) (b >>> 1)) (f2.get (a &&& 1) (b &&& 1)))
    if ops.re g < 0 then some (ops.neg g, scaleNeg ops f1, f2)
    else some (g, f1, f2)
  else none

end Accelerate

/-- C9: the standalone Cython module and the accelerate module compute
the same function — for every matrix both `kronecker_factor`
implementations return the same triple `(g, f1, f2)` (and fail on the
same inputs), since past their equivalent shape assertions they execute
the same max-entry scan, factor extraction, determinant normalization and
sign correction. -/
theorem kronecker_factor_impls_agree {R K : Type} [LinearOrderedRing R]
    (ops : ComplexOps R K) (mat : List (List K)) :
    LinalgCy.kronecker_factor ops mat = Accelerate.kronecker_factor ops mat := by
  have hcond : (mat.length = 4 ∧ (mat.headD []).length = 4) ↔
      (mat.length = (mat.headD []).length ∧ (mat.headD []).length = 4) := by
    constructor
    · rintro ⟨h1, h2⟩
      exact ⟨h1.trans h2.symm, h2⟩
    · rintro ⟨h1, h2⟩
      exact ⟨h1.trans h2, h2⟩
  unfold LinalgCy.kronecker_factor Accelerate.kronecker_factor
  exact if_congr hcond rfl rfl

/-- The final sign-correction step of `kronecker_factor` always hands
back a global factor with nonnegative real part. -/
lemma signfix_re_nonneg {R K : Type} [LinearOrderedRing R]
    (ops : ComplexOps R K) (hre : ∀ z, ops.re (ops.neg z) = - ops.re z)
    {g0 : K} {f10 f20 : M2 K} {g : K} {f1 f2 : M2 K}
    (h : (if ops.re g0 < 0 then some (ops.neg g0, scaleNeg ops f10, f20)
          else some (g0, f10, f20)) = some (g, f1, f2)) :
    0 ≤ ops.re g := by
  by_cases hlt : ops.re g0 < 0
  · rw [if_pos hlt] at h
    simp only [Option.some.injEq, Prod.mk.injEq] at h
    rcases h with ⟨hg, -, -⟩
    rw [← hg, hre]
    exact neg_nonneg.mpr (le_of_lt hlt)
  · rw [if_neg hlt] at h
    simp only [Option.some.injEq, Prod.mk.injEq] at h
    rcases h with ⟨hg, -, -⟩
    rw [← hg]
    exact not_lt.mp hlt

/-- C10: whenever `kronecker_factor` returns (in either implementation),
the global factor has nonnegative real part, because the final step
negates both `g` and `f1` exactly when `Re(g) < 0`; and an input whose
shape is not 4×4 is rejected by the assertions. -/
theorem kronecker_factor_re_nonneg {R K : Type} [LinearOrderedRing R]
    (ops : ComplexOps R K) (hre : ∀ z, ops.re (ops.neg z) = - ops.re z)
    (mat : List (List K)) (g : K) (f1 f2 : M2 K) :
    (LinalgCy.kronecker_factor ops mat = some (g, f1, f2) → 0 ≤ ops.re g) ∧
    (Accelerate.kronecker_factor ops mat = some (g, f1, f2) → 0 ≤ ops.re g) ∧
    (¬ (mat.length = 4 ∧ (mat.headD []).length = 4) →
        LinalgCy.kronecker_factor ops mat = none ∧
        Accelerate.kronecker_factor ops mat = none) := by
  refine ⟨?_, ?_, ?_⟩
  · intro h
    unfold LinalgCy.kronecker_factor at h
    by_cases hc : mat.length = 4 ∧ (mat.headD []).length = 4
    · rw [if_pos hc] at h
      exact signfix_re_nonneg ops hre h
    · rw [if_neg hc] at h
      exact absurd h (by simp)
  · intro h
    unfold Accelerate.kronecker_factor at h
    by_cases hc : mat.length = (mat.headD []).length ∧ (mat.headD []).length = 4
    · rw [if_pos hc] at h
      exact signfix_re_nonneg ops hre h
    · rw [if_neg hc] at h
      exact absurd h (by simp)
  · intro hc
    constructor
    · unfold LinalgCy.kronecker_factor
      exact if_neg hc
    · unfold Accelerate.kronecker_factor
      refine if_neg fun hcontra => hc ?_
      exact ⟨hcontra.1.trans hcontra.2, hcontra.2⟩

/-- Exact complex arithmetic on pairs of integers: a concrete instance of
the operation record (the placeholder `sqrt` and the truncating `div` are
unconstrained by the theorems; `abs` is the squared magnitude). -/
def intOps : ComplexOps ℤ (ℤ × ℤ) where
  zero := (0, 0)
  one := (1, 0)
  neg z := (-z.1, -z.2)
  mul w z := (w.1 * z.1 - w.2 * z.2, w.1 * z.2 + w.2 * z.1)
  sub w z := (w.1 - z.1, w.2 - z.2)
  div w z := ((w.1 * z.1 + w.2 * z.2) / (z.1 * z.1 + z.2 * z.2),
              (w.2 * z.1 - w.1 * z.2) / (z.1 * z.1 + z.2 * z.2))
  sqrt z := z
  abs z := z.1 * z.1 + z.2 * z.2
  re z := z.1
  isZero z := decide (z = (0, 0))

/-- A concrete 4×4 input: a single unit entry in the corner. -/
def witMat : List (List (ℤ × ℤ)) :=
  [[(1, 0), (0, 0), (0, 0), (0, 0)],
   [(0, 0), (0, 0), (0, 0), (0, 0)],
   [(0, 0), (0, 0), (0, 0), (0, 0)],
   [(0, 0), (0, 0), (0, 0), (0, 0)]]

set_option maxRecDepth 4000 in
/-- Witness for C10: on the concrete input the standalone implementation
returns, and the returned global factor has nonnegative real part. -/
theorem kronecker_factor_re_nonneg_witness :
    0 ≤ intOps.re (1, 0) :=
  (kronecker_factor_re_nonneg intOps (fun _ => rfl) witMat (1, 0)
      ⟨(1, 0), (0, 0), (0, 0), (0, 0)⟩
      ⟨(1, 0), (0, 0), (0, 0), (0, 0)⟩).1 (by decide)

end PyQasm
